import Mathlib

/-!
Verification of the stable-marriage repository (`stable_matching.py` and
`stable_marriage_csv.py`).

The Python code is shallowly embedded: dictionaries become association
lists (insertion order preserved, mirroring Python's ordered dicts),
exceptions become `Option` (`none` models a raised exception), and the
unbounded `while` loop of `stable_marriage` becomes a fuel-indexed
recursion (`none` also models fuel exhaustion; every theorem about a
run conditions on the run having produced a value).

A deliberately preserved quirk of the source: `stable_marriage` builds
the `bachelors` work list from fresh `Man` objects while re-queueing a
displaced suitor through `men_dict`, a *different* object per man.  The
embedding models this with a per-entry tag (`false` = initial clone
starting at pointer 0, `true` = the `men_dict` object whose pointer is
stored in `dictPtr`).
-/

namespace StableMarriage

/-- Association-list lookup, first binding wins.  Models a Python dict
lookup (`d[k]`) returning `none` where Python raises `KeyError`; on the
duplicate-free key lists required of valid inputs it agrees with dict
semantics. -/
def alookup {β : Type} : List (String × β) → String → Option β
  | [], _ => none
  | (k, v) :: rest, k' => if k' = k then some v else alookup rest k'

/-- Rank of `m` in a preference list: the index of the *last* occurrence
(`Woman.__init__` builds `preference_dict` by enumeration, so a later
duplicate overwrites an earlier index), `none` if absent (Python raises
`KeyError` in `get_ranking`). -/
def prefRank : List String → String → Option Nat
  | [], _ => none
  | p :: rest, m =>
    match prefRank rest m with
    | some i => some (i + 1)
    | none => if p = m then some 0 else none

/-- `Woman.get_ranking`: `None` ranks as the list length (`num_suitors`),
a named man ranks by `preference_dict`; a man absent from the list is a
`KeyError`, modelled as `none`. -/
def getRanking (prefs : List String) : Option String → Option Nat
  | none => some prefs.length
  | some m => prefRank prefs m

/-- The proposal scan of one bachelor (the `next_candidate` calls and the
inner `while` of `stable_marriage`), starting from the suffix of his
preference list at his current pointer.  Returns
`none` on a raised exception (unknown woman, or a rank `KeyError`),
`some none` when the list is exhausted (the `return []` branch), and
`some (some (w, rest))` when woman `w` accepts, `rest` being the
untried suffix after `w`. -/
def propose (female : List (String × List String)) (suitor : String → Option String)
    (m : String) : List String → Option (Option (String × List String))
  | [] => some none
  | w :: rest =>
    match alookup female w with
    | none => none
    | some wp =>
      match prefRank wp m, getRanking wp (suitor w) with
      | some rm, some rs =>
        if rm > rs then propose female suitor m rest else some (some (w, rest))
      | _, _ => none

/-- One woman's suitor map update. -/
def setSuitor (suitor : String → Option String) (w : String) (m : String) :
    String → Option String :=
  fun w' => if w' = w then some m else suitor w'

/-- The main loop of `stable_marriage`.  State: `suitor` (each woman's
current suitor), `dictPtr` (the `next_index` of each `men_dict` object),
the FIFO `queue` of bachelors (name, tag: `true` when the entry is the
`men_dict` object, `false` for the fresh objects the queue is seeded
with), and the accumulated `trace` of proposals `(man, woman)` in order.
Result: `none` = exception or out of fuel, `some none` = the `return []`
branch (a man exhausted his list), `some (some (suitor, trace))` =
success. -/
def gsRun (male female : List (String × List String)) :
    (String → Option String) → (String → Nat) → List (String × Bool) →
    List (String × String) → Nat →
    Option (Option ((String → Option String) × List (String × String)))
  | suitor, _, [], trace, _ => some (some (suitor, trace))
  | _, _, _ :: _, _, 0 => none
  | suitor, dictPtr, (m, isD) :: rest, trace, fuel + 1 =>
    match alookup male m with
    | none => none
    | some prefs =>
      let start := if isD then dictPtr m else 0
      let tried := prefs.drop start
      match propose female suitor m tried with
      | none => none
      | some none => some none
      | some (some (w, remaining)) =>
        let newPtr := prefs.length - remaining.length
        let trace' := trace ++ (tried.take (tried.length - remaining.length)).map
          (fun w' => (m, w'))
        let queue' := match suitor w with
          | some s => rest ++ [(s, true)]
          | none => rest
        let suitor' := setSuitor suitor w m
        let dictPtr' := if isD then (fun n => if n = m then newPtr else dictPtr n)
          else dictPtr
        gsRun male female suitor' dictPtr' queue' trace' fuel

/-- `stable_marriage` with its proposal trace.  On success the result is
the list `[(woman.suitor, woman) for each woman in female order]`
(the source's `[(man, woman) for woman, man in marriages.items()]`),
paired with the sequence of proposals that were made. -/
def stableMarriageT (male female : List (String × List String)) (fuel : Nat) :
    Option (List (Option String × String) × List (String × String)) :=
  match gsRun male female (fun _ => none) (fun _ => 0)
      (male.map (fun p => (p.1, false))) [] fuel with
  | none => none
  | some none => some ([], [])
  | some (some (suitor, trace)) =>
    some (female.map (fun p => (suitor p.1, p.1)), trace)

/-- `stable_marriage(male, female)` from `stable_matching.py`: `none`
models a raised exception (or fuel exhaustion), `some []` the infeasible
`return []`, `some pairs` the final marriages in `female` order with an
absent suitor rendered as `none`. -/
def stable_marriage (male female : List (String × List String)) (fuel : Nat) :
    Option (List (Option String × String)) :=
  (stableMarriageT male female fuel).map Prod.fst

/-! Models of `stable_marriage_csv.py`.  Rows are lists of strings whose
head is the member's own name; years dictionaries are modelled as total
functions (the claims under verification always supply complete maps). -/

/-- `list_to_dictionary`: each row's head maps to its tail.  Python's
dict keeps the last duplicate key; `alookup` keeps the first — identical
on the duplicate-free names enforced by `validate_data`. -/
def list_to_dictionary (rows : List (List String)) : List (String × List String) :=
  rows.map (fun r => (r.headD "", r.drop 1))

/-- The duplicate-name diagnostic of `validate_data`: every name whose
earlier occurrence was already seen, in row order (`bad_people`). -/
def dupNames (rows : List (List String)) : List String :=
  (rows.foldl (fun st r =>
    let name := r.headD ""
    if name ∈ st.1 then (st.1, st.2 ++ [name]) else (st.1 ++ [name], st.2))
    (([] : List String), ([] : List String))).2

/-- The mentor-side pruning loop of `validate_data` (lines 197-211): for
each entry of the row's tail (a snapshot, as `preference_list[1:]` copies),
drop the first occurrence of the entry from the evolving row when the
candidate does not exist, or — when year checking is on — when the
candidate's year is not strictly greater than the mentor's. -/
def pruneMentorRow (candidateNames : List String) (checkYear : Bool)
    (candidatesYears : String → Int) (year : Int) (row : List String) : List String :=
  (row.drop 1).foldl (fun r cand =>
    if cand ∉ candidateNames then r.erase cand
    else if checkYear ∧ candidatesYears cand ≤ year then r.erase cand
    else r) row

/-- The candidate-side pruning loop of `validate_data` (lines 214-226):
nonexistent mentors are dropped; the year branch of the source only
prints a warning and drops nothing. -/
def pruneCandidateRow (mentorNames : List String) (row : List String) : List String :=
  (row.drop 1).foldl (fun r mentor =>
    if mentor ∉ mentorNames then r.erase mentor
    else r) row

/-- Error taxonomy of `validate_data` (the two `ValueError` raises). -/
inductive ValidateError : Type
  | dupCandidates (names : List String)
  | dupMentors (names : List String)
deriving DecidableEq

/-- `validate_data(mentors, candidates, mentors_years, candidates_years)`.
Diagnostic printing is dropped (pure I/O); the returned pair is the pruned
`(mentors, candidates)` that the Python mutates in place. -/
def validate_data (mentors candidates : List (List String))
    (mentorsYears candidatesYears : Option (String → Int)) :
    Except ValidateError (List (List String) × List (List String)) :=
  let candidateNames := candidates.map (fun r => r.headD "")
  let mentorNames := mentors.map (fun r => r.headD "")
  let checkYear := mentorsYears.isSome ∧ candidatesYears.isSome
  let my := mentorsYears.getD (fun _ => 0)
  let cy := candidatesYears.getD (fun _ => 0)
  if ¬ candidateNames.Nodup then .error (.dupCandidates (dupNames candidates))
  else if ¬ mentorNames.Nodup then .error (.dupMentors (dupNames mentors))
  else
    .ok (mentors.map (fun r => pruneMentorRow candidateNames checkYear cy (my (r.headD "")) r),
      candidates.map (fun r => pruneCandidateRow mentorNames r))

/-- Ascending lexicographic order on strings by code points, the order
Python's `sorted` uses on `str`. -/
def strRel (a b : String) : Prop := a.data ≤ b.data

instance : DecidableRel strRel := fun a b => inferInstanceAs (Decidable (a.data ≤ b.data))

instance : IsTotal String strRel := ⟨fun a b => le_total a.data b.data⟩

instance : IsTrans String strRel := ⟨fun _ _ _ h1 h2 => le_trans h1 h2⟩

/-- The `sorted(list(names))` call of `fill_list`. -/
def sortStr (l : List String) : List String := List.insertionSort strRel l

/-- `fill_list(preference_list, name_set)` (lines 279-303): keep the head
(the member's own name) and the stated tail with duplicates and re-listed
names removed, then append the unstated names in ascending order.  The
`name_set` argument is a duplicate-free list standing for the Python set;
`none` models the `IndexError` that `preference_list[0]` raises on an
empty row. -/
def fill_list (preference_list : List String) (name_set : List String) :
    Option (List String) :=
  match preference_list with
  | [] => none
  | own :: tail =>
    let res := tail.foldl (fun (st : List String × List String) name =>
      let l := if name ∈ st.1 then st.1 else st.1 ++ [name]
      let names := if name ∈ st.2 then st.2.erase name else st.2
      (l, names)) ([own], name_set)
    some (res.1 ++ sortStr res.2)

/-- `match_top_choices(mentors, candidates)` (lines 330-355) on the two
preference dictionaries: a mentor with an empty list is skipped; a
mentor whose top choice is each other's top yields a pairing.  `none`
models the `KeyError`/`IndexError` of `candidates[preference_list[0]][0]`
when the top candidate is unknown or has an empty list. -/
def match_top_choices : List (String × List String) → List (String × List String) →
    List (String × String) → Option (List (String × String))
  | [], _, acc => some acc
  | (mentor, preference_list) :: rest, candidates, acc =>
    match preference_list with
    | [] => match_top_choices rest candidates acc
    | top :: _ =>
      match alookup candidates top with
      | none => none
      | some cPrefs =>
        match cPrefs with
        | [] => none
        | cTop :: _ =>
          match_top_choices rest candidates
            (if cTop = mentor then acc ++ [(mentor, top)] else acc)

/-- `match_no_preference(group1, group2, max_to_scan)` (lines 357-401):
group1 members with an empty stated tail are the no-preference pool;
ranks `1 .. max_to_scan-1` of every group2 row are scanned in increasing
rank order, pairing a still-pooled member and removing it from the pool.
Pairings are `(group1 member, group2 member)`. -/
def match_no_preference (group1 group2 : List (List String)) (max_to_scan : Nat) :
    List (String × String) :=
  let noPref := (group1.filter (fun row => row.drop 1 = [])).map (fun row => row.headD "")
  ((List.range' 1 (max_to_scan - 1)).foldl (fun (st : List String × List (String × String)) i =>
    let rankIPairings := group2.filterMap (fun row =>
      if i < row.length then some (row.headD "", row.getD i "") else none)
    rankIPairings.foldl (fun st p =>
      if p.2 ∈ st.1 then (st.1.erase p.2, st.2 ++ [(p.2, p.1)]) else st) st)
    (noPref, [])).2

/-! Statement-level definitions: instance validity, rank comparison in
the sense of `Woman.get_ranking`, partner extraction from result lists,
and the stable-matching predicate the specification quantifies over. -/

/-- Preference list attached to a name (empty when absent). -/
def prefsIn (l : List (String × List String)) (n : String) : List String :=
  (alookup l n).getD []

/-- Total version of `get_ranking` for statements: `none` (no partner)
ranks as the list length, a listed member by its index, an unlisted one
also as the length (the claims keep lists total, so the unlisted case
never decides a comparison). -/
def rankIn (prefs : List String) : Option String → Nat
  | none => prefs.length
  | some m => (prefRank prefs m).getD prefs.length

/-- Valid engine instance in the sense of claims C1-C3: unique names on
both sides and preference dictionaries that are duplicate-free and total
over the opposite group, mentioning only existing members. -/
@[reducible] def Valid (male female : List (String × List String)) : Prop :=
  (male.map Prod.fst).Nodup ∧ (female.map Prod.fst).Nodup ∧
  (∀ p ∈ male, p.2.Nodup ∧ (∀ w ∈ p.2, w ∈ female.map Prod.fst) ∧
    (∀ w ∈ female.map Prod.fst, w ∈ p.2)) ∧
  (∀ p ∈ female, p.2.Nodup ∧ (∀ m ∈ p.2, m ∈ male.map Prod.fst) ∧
    (∀ m ∈ male.map Prod.fst, m ∈ p.2))

/-- Partner of proposer `m` in a matching given as (proposer, responder)
pairs. -/
def matchOfM (mu : List (String × String)) (m : String) : Option String :=
  (mu.find? (fun p => decide (p.1 = m))).map Prod.snd

/-- Partner of responder `w` in a matching given as (proposer, responder)
pairs. -/
def matchOfW (mu : List (String × String)) (w : String) : Option String :=
  (mu.find? (fun p => decide (p.2 = w))).map Prod.fst

/-- Partner of proposer `m` in an engine result (entries are
`(suitor option, responder)` in responder order). -/
def resMatchOfM (res : List (Option String × String)) (m : String) : Option String :=
  (res.find? (fun p => decide (p.1 = some m))).map Prod.snd

/-- Partner of responder `w` in an engine result. -/
def resMatchOfW (res : List (Option String × String)) (w : String) : Option String :=
  ((res.find? (fun p => decide (p.2 = w))).map Prod.fst).join

/-- A stable matching of the instance, as the specification quantifies
over them: a set of (proposer, responder) pairs, no member used twice,
every proposer assigned, and no pair in which both strictly prefer each
other (in the `get_ranking` order, an absent partner ranking as the
list length) over their assigned partners. -/
@[reducible] def ListStable (male female : List (String × List String))
    (mu : List (String × String)) : Prop :=
  (mu.map Prod.fst).Nodup ∧ (mu.map Prod.snd).Nodup ∧
  (∀ p ∈ mu, p.1 ∈ male.map Prod.fst ∧ p.2 ∈ female.map Prod.fst) ∧
  (∀ m ∈ male.map Prod.fst, m ∈ mu.map Prod.fst) ∧
  (∀ m ∈ male.map Prod.fst, ∀ w ∈ female.map Prod.fst,
    rankIn (prefsIn male m) (some w) < rankIn (prefsIn male m) (matchOfM mu m) →
    ¬ rankIn (prefsIn female w) (some m) < rankIn (prefsIn female w) (matchOfW mu w))

/-- First-occurrence-kept deduplication, as §4.2 of the specification
describes the stated part of a completed list. -/
def dedupKeepFirst (l : List String) : List String :=
  l.foldl (fun acc a => if a ∈ acc then acc else acc ++ [a]) []

/-- Execution invariant of `gsRun`.  `queue` entries are (name, tag);
`dictPtr` is the pointer of each `men_dict` object.  The certificates
(`dcert`, `mcert`) record that every responder a proposer has passed
currently holds a suitor she strictly prefers (or the proposer himself,
for the slot he last proposed to). -/
structure Inv (male female : List (String × List String))
    (suitor : String → Option String) (dictPtr : String → Nat)
    (queue : List (String × Bool)) : Prop where
  qsub : ∀ e ∈ queue, e.1 ∈ male.map Prod.fst
  qnodup : (queue.map Prod.fst).Nodup
  qclone : ∀ e ∈ queue, e.2 = false → dictPtr e.1 = 0
  srange : ∀ w m, suitor w = some m → m ∈ male.map Prod.fst ∧ w ∈ female.map Prod.fst
  sinj : ∀ w1 w2 m, suitor w1 = some m → suitor w2 = some m → w1 = w2
  part : ∀ m ∈ male.map Prod.fst, (m ∈ queue.map Prod.fst) ↔ (∀ w, suitor w ≠ some m)
  dbound : ∀ m, dictPtr m ≤ (prefsIn male m).length
  dcert : ∀ m ∈ male.map Prod.fst, ∀ j, j < dictPtr m → ∀ w,
    (prefsIn male m).get? j = some w →
    ∃ m', suitor w = some m' ∧ (m' = m ∨
      rankIn (prefsIn female w) (some m') < rankIn (prefsIn female w) (some m))
  mcert : ∀ w m, suitor w = some m → ∃ j, (prefsIn male m).get? j = some w ∧
    ∀ j', j' < j → ∀ w', (prefsIn male m).get? j' = some w' →
    ∃ m', suitor w' = some m' ∧
      rankIn (prefsIn female w') (some m') < rankIn (prefsIn female w') (some m)

/-- Optimality invariant relative to a fixed stable matching `mu`: no
responder matched in `mu` ever holds a suitor she strictly prefers to
her `mu`-partner. -/
def OInv (female : List (String × List String)) (mu : List (String × String))
    (suitor : String → Option String) : Prop :=
  ∀ w m2, matchOfW mu w = some m2 → ∀ mS, suitor w = some mS →
    rankIn (prefsIn female w) (some m2) ≤ rankIn (prefsIn female w) (some mS)

/-! Basic lemmas about lookups and ranks. -/

lemma alookup_mem_keys {β : Type} {l : List (String × β)} {k : String} {v : β}
    (h : alookup l k = some v) : k ∈ l.map Prod.fst := by
  induction l with
  | nil => simp [alookup] at h
  | cons p rest ih =>
    rw [alookup] at h
    by_cases hk : k = p.1
    · simp [hk]
    · simp only [hk, if_false] at h
      simp [ih h]

lemma alookup_mem {β : Type} {l : List (String × β)} {k : String} {v : β}
    (h : alookup l k = some v) : (k, v) ∈ l := by
  induction l with
  | nil => simp [alookup] at h
  | cons p rest ih =>
    obtain ⟨a, b⟩ := p
    rw [alookup] at h
    by_cases hk : k = a
    · rw [if_pos hk] at h
      cases h
      subst hk
      exact List.mem_cons_self _ _
    · simp only [hk, if_false] at h
      exact List.mem_cons_of_mem _ (ih h)

lemma alookup_exists_of_mem_keys {β : Type} {l : List (String × β)} {k : String}
    (h : k ∈ l.map Prod.fst) : ∃ v, alookup l k = some v := by
  induction l with
  | nil => simp at h
  | cons p rest ih =>
    rw [List.map_cons, List.mem_cons] at h
    by_cases hk : k = p.1
    · exact ⟨p.2, by simp [alookup, hk]⟩
    · rcases h with h | h
      · exact absurd h hk
      · rcases ih h with ⟨v, hv⟩
        exact ⟨v, by simp [alookup, hk, hv]⟩

lemma alookup_of_mem_nodup {β : Type} {l : List (String × β)} {k : String} {v : β}
    (hn : (l.map Prod.fst).Nodup) (h : (k, v) ∈ l) : alookup l k = some v := by
  induction l with
  | nil => simp at h
  | cons p rest ih =>
    rw [List.map_cons, List.nodup_cons] at hn
    rcases List.mem_cons.mp h with h | h
    · subst h
      simp [alookup]
    · have hk : k ≠ p.1 := by
        intro hkp
        exact hn.1 (hkp ▸ (List.mem_map.mpr ⟨(k, v), h, rfl⟩))
      simp [alookup, hk, ih hn.2 h]

lemma prefRank_lt_length {l : List String} {m : String} {i : Nat}
    (h : prefRank l m = some i) : i < l.length := by
  induction l generalizing i with
  | nil => simp [prefRank] at h
  | cons p rest ih =>
    rw [prefRank] at h
    cases hr : prefRank rest m with
    | some j =>
      rw [hr] at h
      cases h
      exact Nat.succ_lt_succ (ih hr)
    | none =>
      rw [hr] at h
      by_cases hp : p = m
      · rw [if_pos hp] at h
        cases h
        simp
      · simp [hp] at h

lemma prefRank_get? {l : List String} {m : String} {i : Nat}
    (h : prefRank l m = some i) : l.get? i = some m := by
  induction l generalizing i with
  | nil => simp [prefRank] at h
  | cons p rest ih =>
    rw [prefRank] at h
    cases hr : prefRank rest m with
    | some j =>
      rw [hr] at h
      cases h
      simpa using ih hr
    | none =>
      rw [hr] at h
      by_cases hp : p = m
      · simp [hp] at h
        subst hp
        simp [← h]
      · simp [hp] at h

lemma prefRank_eq_none_of_not_mem {l : List String} {m : String}
    (h : m ∉ l) : prefRank l m = none := by
  induction l with
  | nil => rfl
  | cons p rest ih =>
    rw [prefRank, ih (fun hm => h (List.mem_cons_of_mem _ hm))]
    have : p ≠ m := fun hp => h (hp ▸ List.mem_cons_self p rest)
    simp [this]

lemma prefRank_exists_of_mem {l : List String} {m : String}
    (h : m ∈ l) : ∃ i, prefRank l m = some i := by
  induction l with
  | nil => simp at h
  | cons p rest ih =>
    by_cases hm : m ∈ rest
    · rcases ih hm with ⟨i, hi⟩
      exact ⟨i + 1, by rw [prefRank, hi]⟩
    · have hp : p = m := by
        rcases List.mem_cons.mp h with h | h
        · exact h.symm
        · exact absurd h hm
      exact ⟨0, by rw [prefRank, prefRank_eq_none_of_not_mem hm]; simp [hp]⟩

lemma prefRank_eq_of_get?_nodup {l : List String} (hn : l.Nodup) {i : Nat} {m : String}
    (h : l.get? i = some m) : prefRank l m = some i := by
  induction l generalizing i with
  | nil => simp at h
  | cons p rest ih =>
    rw [List.nodup_cons] at hn
    cases i with
    | zero =>
      simp at h
      subst h
      rw [prefRank, prefRank_eq_none_of_not_mem hn.1]
      simp
    | succ j =>
      simp only [List.get?_cons_succ] at h
      rw [prefRank, ih hn.2 h]

lemma rankIn_eq_of_prefRank {l : List String} {m : String} {i : Nat}
    (h : prefRank l m = some i) : rankIn l (some m) = i := by
  simp [rankIn, h]

lemma rankIn_get? {l : List String} (hn : l.Nodup) {i : Nat} {m : String}
    (h : l.get? i = some m) : rankIn l (some m) = i :=
  rankIn_eq_of_prefRank (prefRank_eq_of_get?_nodup hn h)

lemma rankIn_lt_length_of_mem {l : List String} {m : String}
    (h : m ∈ l) : rankIn l (some m) < l.length := by
  rcases prefRank_exists_of_mem h with ⟨i, hi⟩
  rw [rankIn_eq_of_prefRank hi]
  exact prefRank_lt_length hi

lemma get?_eq_of_rankIn {l : List String} {m : String}
    (h : m ∈ l) : l.get? (rankIn l (some m)) = some m := by
  rcases prefRank_exists_of_mem h with ⟨i, hi⟩
  rw [rankIn_eq_of_prefRank hi]
  exact prefRank_get? hi

lemma eq_of_rankIn_eq {l : List String} {m n : String} (hm : m ∈ l) (hn : n ∈ l)
    (h : rankIn l (some m) = rankIn l (some n)) : m = n := by
  have h1 := get?_eq_of_rankIn hm
  have h2 := get?_eq_of_rankIn hn
  rw [h] at h1
  rw [h1] at h2
  exact Option.some.inj h2

/-! Characterization of one proposal scan, and facts about valid rows. -/

lemma prefsIn_lookup {l : List (String × List String)} {n : String}
    (h : n ∈ l.map Prod.fst) : alookup l n = some (prefsIn l n) := by
  rcases alookup_exists_of_mem_keys h with ⟨v, hv⟩
  rw [prefsIn, hv]
  rfl

lemma prefsIn_mem {l : List (String × List String)} {n : String}
    (h : n ∈ l.map Prod.fst) : (n, prefsIn l n) ∈ l :=
  alookup_mem (prefsIn_lookup h)

lemma valid_mrow {male female : List (String × List String)} {m : String}
    (hv : Valid male female) (hm : m ∈ male.map Prod.fst) :
    (prefsIn male m).Nodup ∧ (∀ w ∈ prefsIn male m, w ∈ female.map Prod.fst) ∧
      (∀ w ∈ female.map Prod.fst, w ∈ prefsIn male m) :=
  hv.2.2.1 _ (prefsIn_mem hm)

lemma valid_wrow {male female : List (String × List String)} {w : String}
    (hv : Valid male female) (hw : w ∈ female.map Prod.fst) :
    (prefsIn female w).Nodup ∧ (∀ m ∈ prefsIn female w, m ∈ male.map Prod.fst) ∧
      (∀ m ∈ male.map Prod.fst, m ∈ prefsIn female w) :=
  hv.2.2.2 _ (prefsIn_mem hw)

lemma propose_spec (female : List (String × List String)) (suitor : String → Option String)
    (m : String) :
    ∀ (l : List String) (w : String) (remaining : List String),
    propose female suitor m l = some (some (w, remaining)) →
    ∃ k, l.get? k = some w ∧ remaining = l.drop (k + 1) ∧
      (∃ wp rm rs, alookup female w = some wp ∧ prefRank wp m = some rm ∧
        getRanking wp (suitor w) = some rs ∧ rm ≤ rs) ∧
      (∀ k', k' < k → ∀ w', l.get? k' = some w' →
        ∃ wp m' rm rs, alookup female w' = some wp ∧ suitor w' = some m' ∧
          prefRank wp m = some rm ∧ prefRank wp m' = some rs ∧ rs < rm) := by
  intro l
  induction l with
  | nil =>
    intro w remaining h
    simp [propose] at h
  | cons w0 rest ih =>
    intro w remaining h
    rw [propose] at h
    cases halk : alookup female w0 with
    | none => rw [halk] at h; simp at h
    | some wp =>
      rw [halk] at h
      dsimp only at h
      cases hrm : prefRank wp m with
      | none =>
        rw [hrm] at h
        cases hrs : getRanking wp (suitor w0) with
        | none => rw [hrs] at h; simp at h
        | some rs => rw [hrs] at h; simp at h
      | some rm =>
        rw [hrm] at h
        cases hrs : getRanking wp (suitor w0) with
        | none => rw [hrs] at h; simp at h
        | some rs =>
          rw [hrs] at h
          dsimp only at h
          by_cases hgt : rm > rs
          · rw [if_pos hgt] at h
            rcases ih w remaining h with ⟨k, hget, hrem, hacc, hrej⟩
            refine ⟨k + 1, by simpa using hget, by simpa using hrem, hacc, ?_⟩
            intro k' hk' w' hw'
            cases k' with
            | zero =>
              simp only [List.get?_cons_zero] at hw'
              cases hw'
              have hsw : ∃ m', suitor w0 = some m' := by
                cases hsw0 : suitor w0 with
                | none =>
                  rw [hsw0] at hrs
                  simp [getRanking] at hrs
                  have := prefRank_lt_length hrm
                  omega
                | some m' => exact ⟨m', rfl⟩
              rcases hsw with ⟨m', hm'⟩
              rw [hm'] at hrs
              exact ⟨wp, m', rm, rs, halk, hm', hrm, hrs, hgt⟩
            | succ j =>
              simp only [List.get?_cons_succ] at hw'
              exact hrej j (Nat.lt_of_succ_lt_succ hk') w' hw'
          · rw [if_neg hgt] at h
            cases h
            exact ⟨0, rfl, rfl, ⟨wp, rm, rs, halk, hrm, hrs, Nat.le_of_not_lt hgt⟩,
              fun k' hk' => absurd hk' (Nat.not_lt_zero k')⟩

/-! Preservation of the execution invariant by one accepted proposal. -/

lemma inv_step {male female : List (String × List String)} (hv : Valid male female)
    {suitor : String → Option String} {dictPtr : String → Nat} {m : String} {isD : Bool}
    {rest : List (String × Bool)} {prefs : List String} {w : String} {remaining : List String}
    (hInv : Inv male female suitor dictPtr ((m, isD) :: rest))
    (hlk : alookup male m = some prefs)
    (hprop : propose female suitor m (prefs.drop (if isD then dictPtr m else 0)) =
      some (some (w, remaining))) :
    Inv male female (setSuitor suitor w m)
      (if isD then (fun n => if n = m then prefs.length - remaining.length else dictPtr n)
        else dictPtr)
      (match suitor w with | some s => rest ++ [(s, true)] | none => rest) := by
  have hm : m ∈ male.map Prod.fst := hInv.qsub (m, isD) (List.mem_cons_self _ _)
  have hprefs : prefsIn male m = prefs := by simp [prefsIn, hlk]
  have hrow := valid_mrow hv hm
  rw [hprefs] at hrow
  have hUnm : ∀ w', suitor w' ≠ some m := (hInv.part m hm).mp (by simp)
  obtain ⟨k, hgetk, hrem, ⟨wp, rm, rs, halkw, hrm, hrs, hle⟩, hrej⟩ :=
    propose_spec female suitor m _ w remaining hprop
  set start := if isD then dictPtr m else 0 with hstartdef
  have hstartD : start = 0 ∨ start = dictPtr m := by
    by_cases hD : isD = true
    · right; simp [hstartdef, hD]
    · left; simp [hstartdef, hD]
  have hidx : prefs.get? (start + k) = some w := by
    rw [← List.get?_drop]; exact hgetk
  have hidxlt : start + k < prefs.length := (List.get?_eq_some.mp hidx).1
  have hwp : prefsIn female w = wp := by simp [prefsIn, halkw]
  have hwKeys : w ∈ female.map Prod.fst := alookup_mem_keys halkw
  have hremlen : prefs.length - remaining.length = start + k + 1 := by
    rw [hrem]
    simp only [List.length_drop]
    omega
  have hmNotRest : m ∉ rest.map Prod.fst := by
    have h := hInv.qnodup
    rw [List.map_cons, List.nodup_cons] at h
    exact h.1
  have hrestNodup : (rest.map Prod.fst).Nodup := by
    have h := hInv.qnodup
    rw [List.map_cons, List.nodup_cons] at h
    exact h.2
  have hrejAbs : ∀ j, j < start + k → ∀ w', prefs.get? j = some w' →
      ∃ m', suitor w' = some m' ∧
        rankIn (prefsIn female w') (some m') < rankIn (prefsIn female w') (some m) := by
    intro j hj w' hw'
    by_cases hjs : j < start
    · have hdj : j < dictPtr m := by
        rcases hstartD with h | h
        · omega
        · omega
      rcases hInv.dcert m hm j hdj w' (by rw [hprefs]; exact hw') with ⟨m', hsm', hdisj⟩
      rcases hdisj with h | h
      · exact absurd hsm' (h ▸ hUnm w')
      · exact ⟨m', hsm', h⟩
    · have hk' : j - start < k := by omega
      have hj' : (prefs.drop start).get? (j - start) = some w' := by
        rw [List.get?_drop]
        have : start + (j - start) = j := by omega
        rw [this]
        exact hw'
      rcases hrej (j - start) hk' w' hj' with ⟨wp', m', rm', rs', halk', hsm', hrm', hrs', hlt'⟩
      refine ⟨m', hsm', ?_⟩
      have hwp' : prefsIn female w' = wp' := by simp [prefsIn, halk']
      rw [hwp', rankIn_eq_of_prefRank hrs', rankIn_eq_of_prefRank hrm']
      exact hlt'
  have hSw : setSuitor suitor w m w = some m := by simp [setSuitor]
  have hSother : ∀ w', w' ≠ w → setSuitor suitor w m w' = suitor w' := by
    intro w' h
    simp [setSuitor, h]
  have hdisp : ∀ s, suitor w = some s →
      rankIn (prefsIn female w) (some m) < rankIn (prefsIn female w) (some s) := by
    intro s hs
    have hrs' : prefRank wp s = some rs := by
      rw [hs] at hrs
      simpa [getRanking] using hrs
    have hne : s ≠ m := fun he => hUnm w (he ▸ hs)
    have hneq : rm ≠ rs := by
      intro he
      apply hne
      have h1 := prefRank_get? hrm
      have h2 := prefRank_get? hrs'
      rw [he] at h1
      rw [h1] at h2
      exact (Option.some.inj h2).symm
    rw [hwp, rankIn_eq_of_prefRank hrm, rankIn_eq_of_prefRank hrs']
    omega
  have hkeep : ∀ w' n, (∃ m', suitor w' = some m' ∧
      rankIn (prefsIn female w') (some m') < rankIn (prefsIn female w') (some n)) →
      ∃ m', setSuitor suitor w m w' = some m' ∧
        rankIn (prefsIn female w') (some m') < rankIn (prefsIn female w') (some n) := by
    rintro w' n ⟨m', hsm', hlt'⟩
    by_cases hww : w' = w
    · subst hww
      exact ⟨m, hSw, lt_trans (hdisp m' hsm') hlt'⟩
    · exact ⟨m', by rw [hSother w' hww]; exact hsm', hlt'⟩
  have hkeepD : ∀ w' n, (∃ m', suitor w' = some m' ∧ (m' = n ∨
      rankIn (prefsIn female w') (some m') < rankIn (prefsIn female w') (some n))) →
      ∃ m', setSuitor suitor w m w' = some m' ∧ (m' = n ∨
        rankIn (prefsIn female w') (some m') < rankIn (prefsIn female w') (some n)) := by
    rintro w' n ⟨m', hsm', hd⟩
    by_cases hww : w' = w
    · subst hww
      by_cases hnm : n = m
      · exact ⟨m, hSw, Or.inl hnm.symm⟩
      · refine ⟨m, hSw, Or.inr ?_⟩
        rcases hd with rfl | hlt2
        · exact hdisp m' hsm'
        · exact lt_trans (hdisp m' hsm') hlt2
    · exact ⟨m', by rw [hSother w' hww]; exact hsm', hd⟩
  -- queue-independent fields
  have hsrange' : ∀ w' n, setSuitor suitor w m w' = some n →
      n ∈ male.map Prod.fst ∧ w' ∈ female.map Prod.fst := by
    intro w' n h
    by_cases hww : w' = w
    · subst hww
      rw [hSw] at h
      cases h
      exact ⟨hm, hwKeys⟩
    · rw [hSother w' hww] at h
      exact hInv.srange w' n h
  have hsinj' : ∀ w1 w2 n, setSuitor suitor w m w1 = some n →
      setSuitor suitor w m w2 = some n → w1 = w2 := by
    intro w1 w2 n h1 h2
    by_cases hw1 : w1 = w <;> by_cases hw2 : w2 = w
    · rw [hw1, hw2]
    · subst hw1
      rw [hSw] at h1
      cases h1
      rw [hSother w2 hw2] at h2
      exact absurd h2 (hUnm w2)
    · subst hw2
      rw [hSw] at h2
      cases h2
      rw [hSother w1 hw1] at h1
      exact absurd h1 (hUnm w1)
    · rw [hSother w1 hw1] at h1
      rw [hSother w2 hw2] at h2
      exact hInv.sinj w1 w2 n h1 h2
  have hdbound' : ∀ n, (if isD then (fun n => if n = m then prefs.length - remaining.length
      else dictPtr n) else dictPtr) n ≤ (prefsIn male n).length := by
    intro n
    by_cases hD : isD = true
    · simp only [hD, if_true]
      by_cases hnm : n = m
      · rw [if_pos hnm, hremlen, hnm, hprefs]
        omega
      · rw [if_neg hnm]
        exact hInv.dbound n
    · simp only [hD, if_false]
      exact hInv.dbound n
  have hdcert' : ∀ n ∈ male.map Prod.fst, ∀ j,
      j < (if isD then (fun n => if n = m then prefs.length - remaining.length
        else dictPtr n) else dictPtr) n → ∀ w',
      (prefsIn male n).get? j = some w' →
      ∃ m', setSuitor suitor w m w' = some m' ∧ (m' = n ∨
        rankIn (prefsIn female w') (some m') < rankIn (prefsIn female w') (some n)) := by
    intro n hn j hj w' hw'
    by_cases hD : isD = true
    · simp only [hD, if_true] at hj
      by_cases hnm : n = m
      · rw [if_pos hnm, hremlen] at hj
        rw [hnm] at hw' ⊢
        rw [hprefs] at hw'
        by_cases hjidx : j = start + k
        · subst hjidx
          rw [hidx] at hw'
          cases hw'
          exact ⟨m, hSw, Or.inl rfl⟩
        · have hjlt : j < start + k := by omega
          rcases hkeep w' m (hrejAbs j hjlt w' hw') with ⟨m', h1, h2⟩
          exact ⟨m', h1, Or.inr h2⟩
      · rw [if_neg hnm] at hj
        exact hkeepD w' n (hInv.dcert n hn j hj w' hw')
    · simp only [hD, if_false] at hj
      exact hkeepD w' n (hInv.dcert n hn j hj w' hw')
  have hmcert' : ∀ w'' n, setSuitor suitor w m w'' = some n →
      ∃ j, (prefsIn male n).get? j = some w'' ∧
      ∀ j', j' < j → ∀ w', (prefsIn male n).get? j' = some w' →
      ∃ m', setSuitor suitor w m w' = some m' ∧
        rankIn (prefsIn female w') (some m') < rankIn (prefsIn female w') (some n) := by
    intro w'' n h
    by_cases hww : w'' = w
    · subst hww
      rw [hSw] at h
      cases h
      refine ⟨start + k, by rw [hprefs]; exact hidx, ?_⟩
      intro j' hj' w' hw'
      rw [hprefs] at hw'
      exact hkeep w' m (hrejAbs j' hj' w' hw')
    · rw [hSother w'' hww] at h
      rcases hInv.mcert w'' n h with ⟨j, hj, hinner⟩
      refine ⟨j, hj, ?_⟩
      intro j' hj' w' hw'
      exact hkeep w' n (hinner j' hj' w' hw')
  -- queue-dependent fields
  cases hsw : suitor w with
  | none =>
    refine ⟨?_, ?_, ?_, hsrange', hsinj', ?_, hdbound', hdcert', hmcert'⟩
    · intro e he
      exact hInv.qsub e (List.mem_cons_of_mem _ he)
    · exact hrestNodup
    · intro e he hfalse
      have h0 := hInv.qclone e (List.mem_cons_of_mem _ he) hfalse
      by_cases hD : isD = true
      · simp only [hD, if_true]
        have hne : e.1 ≠ m := by
          intro hem
          exact hmNotRest (hem ▸ List.mem_map.mpr ⟨e, he, rfl⟩)
        rw [if_neg hne]
        exact h0
      · simp only [hD, if_false]
        exact h0
    · intro n hn
      by_cases hnm : n = m
      · subst hnm
        constructor
        · intro hmem
          exact absurd hmem hmNotRest
        · intro hall
          exact absurd (hall w) (by rw [hSw]; simp)
      · have hold := hInv.part n hn
        rw [List.map_cons, List.mem_cons] at hold
        constructor
        · intro hmem w'
          by_cases hww : w' = w
          · subst hww
            rw [hSw]
            simp [Ne.symm hnm]
          · rw [hSother w' hww]
            exact (hold.mp (Or.inr hmem)) w'
        · intro hall
          have : ∀ w', suitor w' ≠ some n := by
            intro w'
            by_cases hww : w' = w
            · subst hww
              rw [hsw]
              simp
            · rw [← hSother w' hww]
              exact hall w'
          rcases hold.mpr this with h | h
          · exact absurd h hnm
          · exact h
  | some s =>
    have hsmem : s ∈ male.map Prod.fst := (hInv.srange w s hsw).1
    have hsm : s ≠ m := fun he => hUnm w (he ▸ hsw)
    have hsNotQueue : s ∉ ((m, isD) :: rest).map Prod.fst := by
      intro hmem
      exact ((hInv.part s hsmem).mp hmem) w hsw
    have hsNotRest : s ∉ rest.map Prod.fst := by
      intro hmem
      exact hsNotQueue (by rw [List.map_cons]; exact List.mem_cons_of_mem _ hmem)
    refine ⟨?_, ?_, ?_, hsrange', hsinj', ?_, hdbound', hdcert', hmcert'⟩
    · intro e he
      rw [List.mem_append] at he
      rcases he with he | he
      · exact hInv.qsub e (List.mem_cons_of_mem _ he)
      · simp at he
        rw [he]
        exact hsmem
    · rw [List.map_append]
      rw [List.nodup_append]
      refine ⟨hrestNodup, List.nodup_singleton s, ?_⟩
      intro a ha hb
      simp at hb
      subst hb
      exact hsNotRest ha
    · intro e he hfalse
      rw [List.mem_append] at he
      rcases he with he | he
      · have h0 := hInv.qclone e (List.mem_cons_of_mem _ he) hfalse
        by_cases hD : isD = true
        · simp only [hD, if_true]
          have hne : e.1 ≠ m := by
            intro hem
            exact hmNotRest (hem ▸ List.mem_map.mpr ⟨e, he, rfl⟩)
          rw [if_neg hne]
          exact h0
        · simp only [hD, if_false]
          exact h0
      · simp at he
        rw [he] at hfalse
        simp at hfalse
    · intro n hn
      rw [List.map_append]
      by_cases hnm : n = m
      · subst hnm
        constructor
        · intro hmem
          rw [List.mem_append] at hmem
          rcases hmem with h | h
          · exact absurd h hmNotRest
          · simp at h
            exact absurd h.symm hsm
        · intro hall
          exact absurd (hall w) (by rw [hSw]; simp)
      · by_cases hns : n = s
        · subst hns
          constructor
          · intro _ w'
            by_cases hww : w' = w
            · subst hww
              rw [hSw]
              simp [Ne.symm hnm]
            · rw [hSother w' hww]
              intro hcon
              exact hww (hInv.sinj w' w n hcon hsw)
          · intro _
            rw [List.mem_append]
            right
            simp
        · have hold := hInv.part n hn
          rw [List.map_cons, List.mem_cons] at hold
          constructor
          · intro hmem w'
            rw [List.mem_append] at hmem
            rcases hmem with hmem | hmem
            · by_cases hww : w' = w
              · subst hww
                rw [hSw]
                simp [Ne.symm hnm]
              · rw [hSother w' hww]
                exact (hold.mp (Or.inr hmem)) w'
            · simp at hmem
              exact absurd hmem hns
          · intro hall
            have : ∀ w', suitor w' ≠ some n := by
              intro w'
              by_cases hww : w' = w
              · subst hww
                rw [hsw]
                simp [Ne.symm hns]
              · rw [← hSother w' hww]
                exact hall w'
            rcases hold.mpr this with h | h
            · exact absurd h hnm
            · rw [List.mem_append]
              left
              exact h

/-! Fuel induction for `gsRun` and the invariant at the initial and
final states. -/

lemma gsRun_induct {male female : List (String × List String)}
    (P : (String → Option String) → (String → Nat) → List (String × Bool) → Prop)
    (hstep : ∀ suitor dictPtr m isD rest prefs w remaining,
      P suitor dictPtr ((m, isD) :: rest) →
      alookup male m = some prefs →
      propose female suitor m (prefs.drop (if isD then dictPtr m else 0)) =
        some (some (w, remaining)) →
      P (setSuitor suitor w m)
        (if isD then (fun n => if n = m then prefs.length - remaining.length else dictPtr n)
          else dictPtr)
        (match suitor w with | some s => rest ++ [(s, true)] | none => rest)) :
    ∀ fuel suitor dictPtr queue trace sF traceF,
      P suitor dictPtr queue →
      gsRun male female suitor dictPtr queue trace fuel = some (some (sF, traceF)) →
      ∃ dF, P sF dF [] := by
  intro fuel
  induction fuel with
  | zero =>
    intro suitor dictPtr queue trace sF traceF hP hrun
    cases queue with
    | nil =>
      rw [gsRun] at hrun
      cases hrun
      exact ⟨dictPtr, hP⟩
    | cons e rest =>
      rw [gsRun] at hrun
      cases hrun
  | succ n ih =>
    intro suitor dictPtr queue trace sF traceF hP hrun
    cases queue with
    | nil =>
      rw [gsRun] at hrun
      cases hrun
      exact ⟨dictPtr, hP⟩
    | cons e rest =>
      obtain ⟨m, isD⟩ := e
      rw [gsRun] at hrun
      cases hlk : alookup male m with
      | none =>
        rw [hlk] at hrun
        cases hrun
      | some prefs =>
        rw [hlk] at hrun
        dsimp only at hrun
        cases hprop : propose female suitor m
            (prefs.drop (if isD then dictPtr m else 0)) with
        | none =>
          rw [hprop] at hrun
          cases hrun
        | some o =>
          cases o with
          | none =>
            rw [hprop] at hrun
            cases hrun
          | some pr =>
            obtain ⟨w, remaining⟩ := pr
            rw [hprop] at hrun
            dsimp only at hrun
            exact ih _ _ _ _ _ _ (hstep suitor dictPtr m isD rest prefs w remaining
              hP hlk hprop) hrun

lemma map_fst_clones (l : List (String × List String)) :
    (l.map (fun p => (p.1, false))).map Prod.fst = l.map Prod.fst := by
  induction l with
  | nil => rfl
  | cons p rest ih => simp [ih]

lemma inv_init {male female : List (String × List String)} (hv : Valid male female) :
    Inv male female (fun _ => none) (fun _ => 0) (male.map (fun p => (p.1, false))) := by
  refine ⟨?_, ?_, ?_, ?_, ?_, ?_, ?_, ?_, ?_⟩
  · intro e he
    rcases List.mem_map.mp he with ⟨p, hp, rfl⟩
    exact List.mem_map.mpr ⟨p, hp, rfl⟩
  · rw [map_fst_clones]
    exact hv.1
  · intro e he hf
    rfl
  · intro w m h
    cases h
  · intro w1 w2 m h
    cases h
  · intro m hm
    constructor
    · intro _ w
      simp
    · intro _
      rw [map_fst_clones]
      exact hm
  · intro m
    exact Nat.zero_le _
  · intro m hm j hj w hw
    exact absurd hj (Nat.not_lt_zero j)
  · intro w m h
    cases h

lemma final_matched {male female : List (String × List String)}
    {sF : String → Option String} {dF : String → Nat}
    (hInv : Inv male female sF dF []) :
    ∀ m ∈ male.map Prod.fst, ∃ w, sF w = some m := by
  intro m hm
  by_contra hno
  push_neg at hno
  have : m ∈ (([] : List (String × Bool)).map Prod.fst) :=
    (hInv.part m hm).mpr fun w => hno w
  simp at this

lemma final_stable {male female : List (String × List String)} (hv : Valid male female)
    {sF : String → Option String} {dF : String → Nat}
    (hInv : Inv male female sF dF []) :
    ∀ m ∈ male.map Prod.fst, ∀ w ∈ female.map Prod.fst, ∀ wm, sF wm = some m →
    rankIn (prefsIn male m) (some w) < rankIn (prefsIn male m) (some wm) →
    ∃ m', sF w = some m' ∧
      rankIn (prefsIn female w) (some m') < rankIn (prefsIn female w) (some m) := by
  intro m hm w hw wm hswm hlt
  rcases hInv.mcert wm m hswm with ⟨j, hj, hinner⟩
  have hrow := valid_mrow hv hm
  have hrj : rankIn (prefsIn male m) (some wm) = j := rankIn_get? hrow.1 hj
  have hwmem : w ∈ prefsIn male m := hrow.2.2 w hw
  exact hinner _ (by omega) w (get?_eq_of_rankIn hwmem)

/-! Facts about matchings given as pair lists, and preservation of the
optimality invariant. -/

lemma matchOfM_exists {mu : List (String × String)} {m : String}
    (h : m ∈ mu.map Prod.fst) : ∃ w, matchOfM mu m = some w ∧ (m, w) ∈ mu := by
  rcases List.mem_map.mp h with ⟨p, hp, hp1⟩
  have hsome : (mu.find? (fun q => decide (q.1 = m))).isSome :=
    List.find?_isSome.mpr ⟨p, hp, by simp [hp1]⟩
  rcases Option.isSome_iff_exists.mp hsome with ⟨pr, hpr⟩
  have h1 : pr.1 = m := by
    have := List.find?_some hpr
    simpa using this
  have h2 : pr ∈ mu := List.mem_of_find?_eq_some hpr
  refine ⟨pr.2, ?_, ?_⟩
  · rw [matchOfM, hpr]
    rfl
  · rw [← h1]
    exact h2

lemma matchOfW_mem {mu : List (String × String)} {w m2 : String}
    (h : matchOfW mu w = some m2) : (m2, w) ∈ mu := by
  rw [matchOfW] at h
  cases hf : mu.find? (fun q => decide (q.2 = w)) with
  | none => rw [hf] at h; cases h
  | some pr =>
    rw [hf] at h
    have h1 : pr.1 = m2 := by
      simpa using h
    have h2 : pr.2 = w := by
      have := List.find?_some hf
      simpa using this
    have h3 : pr ∈ mu := List.mem_of_find?_eq_some hf
    rw [← h1, ← h2]
    exact h3

lemma matchOfM_mem {mu : List (String × String)} {m w2 : String}
    (h : matchOfM mu m = some w2) : (m, w2) ∈ mu := by
  rw [matchOfM] at h
  cases hf : mu.find? (fun q => decide (q.1 = m)) with
  | none => rw [hf] at h; cases h
  | some pr =>
    rw [hf] at h
    have h1 : pr.2 = w2 := by
      simpa using h
    have h2 : pr.1 = m := by
      have := List.find?_some hf
      simpa using this
    have h3 : pr ∈ mu := List.mem_of_find?_eq_some hf
    rw [← h1, ← h2]
    exact h3

lemma matchOfW_of_mem {mu : List (String × String)}
    (hnd : (mu.map Prod.snd).Nodup) {a b : String} (h : (a, b) ∈ mu) :
    matchOfW mu b = some a := by
  induction mu with
  | nil => simp at h
  | cons p rest ih =>
    rw [List.map_cons, List.nodup_cons] at hnd
    rcases List.mem_cons.mp h with h | h
    · rw [matchOfW, List.find?_cons_of_pos _ (by simp [← h])]
      rw [← h]
      rfl
    · have hne : p.2 ≠ b := by
        intro he
        exact hnd.1 (he ▸ List.mem_map.mpr ⟨(a, b), h, rfl⟩)
      rw [matchOfW, List.find?_cons_of_neg _ (by simp [hne])]
      exact ih hnd.2 h

lemma matchOfM_of_mem {mu : List (String × String)}
    (hnd : (mu.map Prod.fst).Nodup) {a b : String} (h : (a, b) ∈ mu) :
    matchOfM mu a = some b := by
  induction mu with
  | nil => simp at h
  | cons p rest ih =>
    rw [List.map_cons, List.nodup_cons] at hnd
    rcases List.mem_cons.mp h with h | h
    · rw [matchOfM, List.find?_cons_of_pos _ (by simp [← h])]
      rw [← h]
      rfl
    · have hne : p.1 ≠ a := by
        intro he
        exact hnd.1 (he ▸ List.mem_map.mpr ⟨(a, b), h, rfl⟩)
      rw [matchOfM, List.find?_cons_of_neg _ (by simp [hne])]
      exact ih hnd.2 h

lemma oinv_preserve {male female : List (String × List String)}
    {mu : List (String × String)} (hv : Valid male female)
    (hmu : ListStable male female mu)
    {suitor : String → Option String} {w m : String}
    (hO : OInv female mu suitor)
    {dF : String → Nat} {qF : List (String × Bool)}
    (hInvNew : Inv male female (setSuitor suitor w m) dF qF) :
    OInv female mu (setSuitor suitor w m) := by
  intro w2 m2 hmw mS hS
  by_cases hww : w2 = w
  · subst hww
    have hSw : setSuitor suitor w2 m w2 = some m := by simp [setSuitor]
    rw [hSw] at hS
    cases hS
    by_contra hltc
    push_neg at hltc
    have hm : m ∈ male.map Prod.fst := (hInvNew.srange w2 m hSw).1
    have hwW : w2 ∈ female.map Prod.fst := (hInvNew.srange w2 m hSw).2
    obtain ⟨wmu, hmOfM, hpair⟩ := matchOfM_exists (hmu.2.2.2.1 m hm)
    have hne : wmu ≠ w2 := by
      intro he
      subst he
      have hx : matchOfW mu wmu = some m := matchOfW_of_mem hmu.2.1 hpair
      rw [hmw] at hx
      cases hx
      exact absurd hltc (lt_irrefl _)
    have hrowm := valid_mrow hv hm
    have hwmem : w2 ∈ prefsIn male m := hrowm.2.2 w2 hwW
    have hwmuW : wmu ∈ female.map Prod.fst := (hmu.2.2.1 _ hpair).2
    have hwmumem : wmu ∈ prefsIn male m := hrowm.2.2 wmu hwmuW
    rcases hInvNew.mcert w2 m hSw with ⟨j, hget, hinner⟩
    have hj : rankIn (prefsIn male m) (some w2) = j := rankIn_get? hrowm.1 hget
    rcases lt_trichotomy (rankIn (prefsIn male m) (some wmu))
        (rankIn (prefsIn male m) (some w2)) with hc | hc | hc
    · rcases hinner _ (by omega) wmu (get?_eq_of_rankIn hwmumem) with ⟨m3, hS3, hlt3⟩
      have hS3' : suitor wmu = some m3 := by
        rw [setSuitor, if_neg hne] at hS3
        exact hS3
      have hO3 := hO wmu m (matchOfW_of_mem hmu.2.1 hpair) m3 hS3'
      omega
    · exact hne (eq_of_rankIn_eq hwmumem hwmem hc)
    · have hblock := hmu.2.2.2.2 m hm w2 hwW
      rw [hmOfM] at hblock
      have h2 := hblock hc
      rw [hmw] at h2
      exact h2 hltc
  · have hS' : suitor w2 = some mS := by
      rw [setSuitor, if_neg hww] at hS
      exact hS
    exact hO w2 m2 hmw mS hS'

lemma oinv_init {female : List (String × List String)} {mu : List (String × String)} :
    OInv female mu (fun _ => none) := by
  intro w m2 _ mS h
  cases h

lemma final_optimal {male female : List (String × List String)} (hv : Valid male female)
    {mu : List (String × String)} (hmu : ListStable male female mu)
    {sF : String → Option String} {dF : String → Nat}
    (hInv : Inv male female sF dF []) (hO : OInv female mu sF) :
    ∀ m ∈ male.map Prod.fst, ∀ wm, sF wm = some m →
    rankIn (prefsIn male m) (some wm) ≤ rankIn (prefsIn male m) (matchOfM mu m) := by
  intro m hm wm hswm
  obtain ⟨wmu, hmOfM, hpair⟩ := matchOfM_exists (hmu.2.2.2.1 m hm)
  rw [hmOfM]
  by_contra h
  push_neg at h
  rcases hInv.mcert wm m hswm with ⟨j, hget, hinner⟩
  have hrowm := valid_mrow hv hm
  have hj : rankIn (prefsIn male m) (some wm) = j := rankIn_get? hrowm.1 hget
  have hwmuW : wmu ∈ female.map Prod.fst := (hmu.2.2.1 _ hpair).2
  have hwmumem : wmu ∈ prefsIn male m := hrowm.2.2 wmu hwmuW
  rcases hinner _ (by omega) wmu (get?_eq_of_rankIn hwmumem) with ⟨m3, hS3, hlt3⟩
  have hO3 := hO wmu m (matchOfW_of_mem hmu.2.1 hpair) m3 hS3
  omega

/-! Bridging lemmas: from `stable_marriage` results back to the final
suitor assignment. -/

lemma stable_marriage_cases {male female : List (String × List String)} {fuel : Nat}
    {res : List (Option String × String)}
    (h : stable_marriage male female fuel = some res) :
    (res = [] ∧ gsRun male female (fun _ => none) (fun _ => 0)
      (male.map (fun p => (p.1, false))) [] fuel = some none) ∨
    (∃ sF traceF, gsRun male female (fun _ => none) (fun _ => 0)
      (male.map (fun p => (p.1, false))) [] fuel = some (some (sF, traceF)) ∧
      res = female.map (fun p => (sF p.1, p.1))) := by
  rw [stable_marriage, stableMarriageT] at h
  cases hg : gsRun male female (fun _ => none) (fun _ => 0)
      (male.map (fun p => (p.1, false))) [] fuel with
  | none =>
    rw [hg] at h
    cases h
  | some o =>
    rw [hg] at h
    cases o with
    | none =>
      left
      refine ⟨?_, rfl⟩
      simpa using h.symm
    | some pr =>
      obtain ⟨sF, traceF⟩ := pr
      right
      refine ⟨sF, traceF, rfl, ?_⟩
      simpa using h.symm

lemma resMatchOfW_map {female : List (String × List String)}
    (sF : String → Option String) (hnd : (female.map Prod.fst).Nodup)
    {w : String} (hw : w ∈ female.map Prod.fst) :
    resMatchOfW (female.map (fun p => (sF p.1, p.1))) w = sF w := by
  induction female with
  | nil => simp at hw
  | cons p rest ih =>
    rw [List.map_cons, List.nodup_cons] at hnd
    rw [List.map_cons, List.mem_cons] at hw
    by_cases hpw : p.1 = w
    · rw [List.map_cons, resMatchOfW, List.find?_cons_of_pos _ (by simp [hpw])]
      simp [hpw]
    · rcases hw with hw | hw
      · exact absurd hw.symm hpw
      · rw [List.map_cons, resMatchOfW, List.find?_cons_of_neg _ (by simp [hpw])]
        exact ih hnd.2 hw

lemma resMatchOfM_sound {female : List (String × List String)}
    (sF : String → Option String) {m wm : String}
    (h : resMatchOfM (female.map (fun p => (sF p.1, p.1))) m = some wm) :
    sF wm = some m ∧ wm ∈ female.map Prod.fst := by
  rw [resMatchOfM] at h
  cases hf : (female.map (fun p => (sF p.1, p.1))).find? (fun p => decide (p.1 = some m)) with
  | none => rw [hf] at h; cases h
  | some pr =>
    rw [hf] at h
    have h1 : pr.2 = wm := by simpa using h
    have h2 : pr.1 = some m := by
      have := List.find?_some hf
      simpa using this
    have h3 : pr ∈ female.map (fun p => (sF p.1, p.1)) := List.mem_of_find?_eq_some hf
    rcases List.mem_map.mp h3 with ⟨q, hq, hq2⟩
    constructor
    · rw [← h1, ← hq2]
      rw [← hq2] at h2
      exact h2
    · rw [← h1, ← hq2]
      exact List.mem_map.mpr ⟨q, hq, rfl⟩

lemma resMatchOfM_exists {female : List (String × List String)}
    (sF : String → Option String) {m w : String} (hw : w ∈ female.map Prod.fst)
    (hsw : sF w = some m) :
    ∃ wm, resMatchOfM (female.map (fun p => (sF p.1, p.1))) m = some wm := by
  rcases List.mem_map.mp hw with ⟨q, hq, hq1⟩
  have hsome : ((female.map (fun p => (sF p.1, p.1))).find?
      (fun p => decide (p.1 = some m))).isSome := by
    refine List.find?_isSome.mpr ⟨(sF q.1, q.1), List.mem_map.mpr ⟨q, hq, rfl⟩, ?_⟩
    simp [hq1, hsw]
  rcases Option.isSome_iff_exists.mp hsome with ⟨pr, hpr⟩
  exact ⟨pr.2, by rw [resMatchOfM, hpr]; rfl⟩

lemma countP_eq_one_of_key {α : Type} {l : List α} (key : α → String)
    (hnd : (l.map key).Nodup) (p : α → Bool) {a : α} (ha : a ∈ l) (hpa : p a = true)
    (huniq : ∀ b ∈ l, p b = true → key b = key a) : l.countP p = 1 := by
  induction l with
  | nil => simp at ha
  | cons x rest ih =>
    rw [List.map_cons, List.nodup_cons] at hnd
    by_cases hpx : p x = true
    · rw [List.countP_cons, if_pos hpx]
      have hkx : key x = key a := huniq x (List.mem_cons_self _ _) hpx
      have h0 : rest.countP p = 0 := by
        rw [List.countP_eq_zero]
        intro b hb hpb
        have hkb : key b = key a := huniq b (List.mem_cons_of_mem _ hb) hpb
        exact hnd.1 ((hkx.trans hkb.symm) ▸ List.mem_map.mpr ⟨b, hb, rfl⟩)
      omega
    · have ha' : a ∈ rest := by
        rcases List.mem_cons.mp ha with rfl | h
        · exact absurd hpa hpx
        · exact h
      rw [List.countP_cons, if_neg hpx]
      have := ih hnd.2 ha' (fun b hb hpb => huniq b (List.mem_cons_of_mem _ hb) hpb)
      omega

lemma run_success {male female : List (String × List String)} {fuel : Nat}
    {res : List (Option String × String)} (hv : Valid male female)
    (h : stable_marriage male female fuel = some res) (hne : res ≠ []) :
    ∃ sF dF, res = female.map (fun p => (sF p.1, p.1)) ∧ Inv male female sF dF [] := by
  rcases stable_marriage_cases h with ⟨hres, _⟩ | ⟨sF, traceF, hg, hres⟩
  · exact absurd hres hne
  · obtain ⟨dF, hInv⟩ := gsRun_induct (Inv male female)
      (fun s d m isD rest prefs w remaining hP hlk hprop => inv_step hv hP hlk hprop)
      fuel _ _ _ _ _ _ (inv_init hv) hg
    exact ⟨sF, dF, hres, hInv⟩

lemma run_success_opt {male female : List (String × List String)} {fuel : Nat}
    {res : List (Option String × String)} {mu : List (String × String)}
    (hv : Valid male female) (hmu : ListStable male female mu)
    (h : stable_marriage male female fuel = some res) (hne : res ≠ []) :
    ∃ sF dF, res = female.map (fun p => (sF p.1, p.1)) ∧ Inv male female sF dF [] ∧
      OInv female mu sF := by
  rcases stable_marriage_cases h with ⟨hres, _⟩ | ⟨sF, traceF, hg, hres⟩
  · exact absurd hres hne
  · obtain ⟨dF, hInv, hO⟩ := gsRun_induct
      (fun s d q => Inv male female s d q ∧ OInv female mu s)
      (fun s d m isD rest prefs w remaining hP hlk hprop =>
        ⟨inv_step hv hP.1 hlk hprop,
          oinv_preserve hv hmu hP.2 (inv_step hv hP.1 hlk hprop)⟩)
      fuel _ _ _ _ _ _ ⟨inv_init hv, oinv_init⟩ hg
    exact ⟨sF, dF, hres, hInv, hO⟩

lemma map_snd_pairs (sF : String → Option String) (l : List (String × List String)) :
    (l.map (fun p => (sF p.1, p.1))).map Prod.snd = l.map Prod.fst := by
  induction l with
  | nil => rfl
  | cons p rest ih => simp [ih]

/-- Claim C1: on every valid instance (unique names, duplicate-free total
preference lists over the opposite group), a non-empty pairing list
returned by `stable_marriage` is stable — there are no proposer `m` and
responder `w` such that `m` strictly prefers `w` to his assigned partner
and `w` strictly prefers `m` to her assigned suitor (an absent partner
ranking as the list length, as in `Woman.get_ranking`). -/
theorem claim_C1_stability (male female : List (String × List String)) (fuel : Nat)
    (res : List (Option String × String)) (hv : Valid male female)
    (hrun : stable_marriage male female fuel = some res) (hne : res ≠ []) :
    ∀ m ∈ male.map Prod.fst, ∀ w ∈ female.map Prod.fst,
      rankIn (prefsIn male m) (some w) < rankIn (prefsIn male m) (resMatchOfM res m) →
      ¬ rankIn (prefsIn female w) (some m) < rankIn (prefsIn female w) (resMatchOfW res w) := by
  intro m hm w hw hlt hblock
  obtain ⟨sF, dF, hres, hInv⟩ := run_success hv hrun hne
  subst hres
  obtain ⟨wm0, hswm0⟩ := final_matched hInv m hm
  have hw0W : wm0 ∈ female.map Prod.fst := (hInv.srange wm0 m hswm0).2
  obtain ⟨wm, hwm⟩ := resMatchOfM_exists sF hw0W hswm0
  rw [hwm] at hlt
  obtain ⟨hswm, hwmW⟩ := resMatchOfM_sound sF hwm
  obtain ⟨m', hsw', hlt'⟩ := final_stable hv hInv m hm w hw wm hswm hlt
  rw [resMatchOfW_map sF hv.2.1 hw, hsw'] at hblock
  omega

/-- Claim C3: on every valid instance on which the engine returns a
non-empty pairing list, the result is proposer-optimal — for every
stable matching `mu` of the same instance and every proposer, the
responder assigned by `stable_marriage` is ranked by that proposer at
least as high (no larger index) as his partner in `mu`. -/
theorem claim_C3_optimality (male female : List (String × List String)) (fuel : Nat)
    (res : List (Option String × String)) (mu : List (String × String))
    (hv : Valid male female) (hrun : stable_marriage male female fuel = some res)
    (hne : res ≠ []) (hmu : ListStable male female mu) :
    ∀ m ∈ male.map Prod.fst,
      rankIn (prefsIn male m) (resMatchOfM res m) ≤
        rankIn (prefsIn male m) (matchOfM mu m) := by
  intro m hm
  obtain ⟨sF, dF, hres, hInv, hO⟩ := run_success_opt hv hmu hrun hne
  subst hres
  obtain ⟨wm0, hswm0⟩ := final_matched hInv m hm
  have hw0W : wm0 ∈ female.map Prod.fst := (hInv.srange wm0 m hswm0).2
  obtain ⟨wm, hwm⟩ := resMatchOfM_exists sF hw0W hswm0
  rw [hwm]
  obtain ⟨hswm, _⟩ := resMatchOfM_sound sF hwm
  exact final_optimal hv hmu hInv hO m hm wm hswm

/-- Claim C2 (counterexample): on a completed total instance with three
proposers and two responders the engine does not yield a proposer paired
with an absent-counterpart marker — it returns the empty list, its
infeasibility signal, so no member appears in any output pairing. -/
theorem claim_C2_counterexample :
    stable_marriage [("a", ["x", "y"]), ("b", ["x", "y"]), ("c", ["x", "y"])]
      [("x", ["a", "b", "c"]), ("y", ["a", "b", "c"])] 30 = some [] := by decide

/-- Claim C2 (amended): when `stable_marriage` succeeds with a non-empty
result on a valid instance, every responder appears in exactly one
pairing (in input order, possibly with an absent suitor) and every
proposer appears in exactly one pairing; an instance with 3 proposers
and 2 responders instead returns the empty infeasibility result, in
which no proposer (and no absent-counterpart pairing) appears at all. -/
theorem claim_C2_amended :
    (stable_marriage [("a", ["x", "y"]), ("b", ["x", "y"]), ("c", ["x", "y"])]
      [("x", ["a", "b", "c"]), ("y", ["a", "b", "c"])] 30 = some []) ∧
    (∀ male female fuel res, Valid male female →
      stable_marriage male female fuel = some res → res ≠ [] →
      res.map Prod.snd = female.map Prod.fst ∧
      (∀ m ∈ male.map Prod.fst, res.countP (fun p => decide (p.1 = some m)) = 1) ∧
      (∀ w ∈ female.map Prod.fst, res.countP (fun p => decide (p.2 = w)) = 1)) := by
  refine ⟨by decide, ?_⟩
  intro male female fuel res hv hrun hne
  obtain ⟨sF, dF, hres, hInv⟩ := run_success hv hrun hne
  subst hres
  refine ⟨map_snd_pairs sF female, ?_, ?_⟩
  · intro m hm
    obtain ⟨w0, hsw0⟩ := final_matched hInv m hm
    have hw0W : w0 ∈ female.map Prod.fst := (hInv.srange w0 m hsw0).2
    have hentry : (w0, prefsIn female w0) ∈ female := prefsIn_mem hw0W
    rw [List.countP_map]
    apply countP_eq_one_of_key Prod.fst hv.2.1 _ hentry (by simp [Function.comp, hsw0])
    intro b hb hpb
    simp only [Function.comp] at hpb
    have hsb : sF b.1 = some m := of_decide_eq_true hpb
    exact hInv.sinj b.1 w0 m hsb hsw0
  · intro w hw
    have hentry : (w, prefsIn female w) ∈ female := prefsIn_mem hw
    rw [List.countP_map]
    apply countP_eq_one_of_key Prod.fst hv.2.1 _ hentry (by simp [Function.comp])
    intro b hb hpb
    simp only [Function.comp] at hpb
    exact of_decide_eq_true hpb

/-- Claim C4 (code evaluation): `validate_data` is not symmetric.  With
both year maps supplied (every mentor of year 5, every candidate of
year 3), a candidate row listing a mentor whose year is not strictly
less than the candidate's keeps the entry (only a warning is printed in
the source), while the mirror-image mentor row does drop its ineligible
candidate. -/
theorem claim_C4_evaluation :
    (validate_data [["m"]] [["c", "m"]]
      (some (fun _ => (5 : Int))) (some (fun _ => (3 : Int)))).toOption =
      some ([["m"]], [["c", "m"]]) ∧
    ¬ ((5 : Int) < 3) ∧
    (validate_data [["m", "c"]] [["c"]]
      (some (fun _ => (5 : Int))) (some (fun _ => (3 : Int)))).toOption =
      some ([["m"]], [["c"]]) := by
  refine ⟨by decide, by decide, by decide⟩

/-- Claim C5 (code evaluation): a single `match_no_preference` call can
emit two pairings sharing the same group2 member.  With no-preference
group1 members `a`, `b` and the single group2 row `G : [a, b]`, the
rank-1 scan pairs `a` with `G` and the rank-2 scan pairs `b` with `G`
again. -/
theorem claim_C5_evaluation :
    match_no_preference [["a"], ["b"]] [["G", "a", "b"]] 5 =
      [("a", "G"), ("b", "G")] := by
  decide

/-- Claim C6 (code evaluation): a displaced proposer does not resume
from where it left off.  On this 3-by-3 instance the successful run
makes 11 proposals — more than the claimed bound 3 * 3 = 9 — and the
trace re-proposes already-visited responders (for instance `(a, x)`
occurs twice: `a` is displaced from `x` and restarts at the top of his
list, because the requeued `men_dict` object has a fresh pointer). -/
theorem claim_C6_evaluation :
    stableMarriageT [("a", ["x", "z", "y"]), ("b", ["z", "x", "y"]), ("c", ["x", "z", "y"])]
      [("x", ["b", "a", "c"]), ("y", ["a", "c", "b"]), ("z", ["a", "c", "b"])] 30 =
      some ([(some "b", "x"), (some "c", "y"), (some "a", "z")],
        [("a", "x"), ("b", "z"), ("c", "x"), ("c", "z"), ("b", "z"), ("b", "x"),
          ("a", "x"), ("a", "z"), ("c", "x"), ("c", "z"), ("c", "y")]) ∧
    ([("a", "x"), ("b", "z"), ("c", "x"), ("c", "z"), ("b", "z"), ("b", "x"),
      ("a", "x"), ("a", "z"), ("c", "x"), ("c", "z"), ("c", "y")].length = 11 ∧
      3 * 3 < 11) ∧
    [("a", "x"), ("b", "z"), ("c", "x"), ("c", "z"), ("b", "z"), ("b", "x"),
      ("a", "x"), ("a", "z"), ("c", "x"), ("c", "z"), ("c", "y")].count ("a", "x") = 2 := by
  refine ⟨by decide, by decide, by decide⟩

/-! Provenance of `match_no_preference` pairings. -/

lemma mnp_inner_mem (pairs : List (String × String)) :
    ∀ (st : List String × List (String × String)) q,
    q ∈ (pairs.foldl (fun st p =>
      if p.2 ∈ st.1 then (st.1.erase p.2, st.2 ++ [(p.2, p.1)]) else st) st).2 →
    q ∈ st.2 ∨ ∃ p ∈ pairs, q = (p.2, p.1) := by
  induction pairs with
  | nil =>
    intro st q hq
    exact Or.inl hq
  | cons p ps ih =>
    intro st q hq
    rw [List.foldl_cons] at hq
    rcases ih _ q hq with hq' | ⟨p', hp', hq'⟩
    · by_cases hc : p.2 ∈ st.1
      · rw [if_pos hc] at hq'
        rcases List.mem_append.mp hq' with h | h
        · exact Or.inl h
        · simp at h
          exact Or.inr ⟨p, List.mem_cons_self _ _, h⟩
      · rw [if_neg hc] at hq'
        exact Or.inl hq'
    · exact Or.inr ⟨p', List.mem_cons_of_mem _ hp', hq'⟩

lemma mnp_outer_mem (group2 : List (List String)) :
    ∀ (is : List Nat) (st : List String × List (String × String)) q,
    q ∈ (is.foldl (fun st i =>
      (group2.filterMap (fun row =>
        if i < row.length then some (row.headD "", row.getD i "") else none)).foldl
        (fun st p => if p.2 ∈ st.1 then (st.1.erase p.2, st.2 ++ [(p.2, p.1)]) else st)
        st) st).2 →
    q ∈ st.2 ∨ ∃ i ∈ is, ∃ row ∈ group2, i < row.length ∧
      row.headD "" = q.2 ∧ row.getD i "" = q.1 := by
  intro is
  induction is with
  | nil =>
    intro st q hq
    exact Or.inl hq
  | cons i rest ih =>
    intro st q hq
    rw [List.foldl_cons] at hq
    rcases ih _ q hq with hq' | ⟨i', hi', row, hrow, hlen, hhd, hget⟩
    · rcases mnp_inner_mem _ _ q hq' with hq'' | ⟨p, hp, hq''⟩
      · exact Or.inl hq''
      · rcases List.mem_filterMap.mp hp with ⟨row, hrow, hf⟩
        by_cases hlen : i < row.length
        · rw [if_pos hlen] at hf
          cases hf
          refine Or.inr ⟨i, List.mem_cons_self _ _, row, hrow, hlen, ?_, ?_⟩
          · rw [hq'']
          · rw [hq'']
        · rw [if_neg hlen] at hf
          cases hf
    · exact Or.inr ⟨i', List.mem_cons_of_mem _ hi', row, hrow, hlen, hhd, hget⟩

/-- Claim C7 (counterexample): with `max_to_scan = 1` the heuristic
examines no rank slot at all — a no-preference member sitting at rank 1
of a group2 row is not matched, although the same scan with depth 2
matches it.  This refutes the claim's "with max_scan = 1 it considers
only rank-1 slots". -/
theorem claim_C7_counterexample :
    match_no_preference [["a"]] [["G", "a"]] 1 = [] ∧
    match_no_preference [["a"]] [["G", "a"]] 2 = [("a", "G")] := by
  refine ⟨by decide, by decide⟩

/-- Claim C7 (amended): `match_no_preference` examines exactly the rank
slots `1 .. max_to_scan - 1` in increasing rank order; with
`max_to_scan = 1` that range is empty, so nothing is scanned and no
pairing is produced (rank-1 slots are examined only from depth 2 on),
and every emitted pairing names a group1 member found at some rank
`1 ≤ i < max_to_scan` of a group2 row. -/
theorem claim_C7_amended :
    (∀ group1 group2, match_no_preference group1 group2 1 = []) ∧
    (∀ group1 group2 maxScan q, q ∈ match_no_preference group1 group2 maxScan →
      ∃ i, 1 ≤ i ∧ i < maxScan ∧ ∃ row ∈ group2, i < row.length ∧
        row.headD "" = q.2 ∧ row.getD i "" = q.1) := by
  constructor
  · intro group1 group2
    rfl
  · intro group1 group2 maxScan q hq
    rw [match_no_preference] at hq
    rcases mnp_outer_mem group2 _ _ q hq with h | ⟨i, hi, row, hrow, hlen, hhd, hget⟩
    · simp at h
    · rw [List.mem_range'_1] at hi
      refine ⟨i, hi.1, ?_, row, hrow, hlen, hhd, hget⟩
      omega

/-! Decomposition of the `fill_list` fold. -/

lemma foldl_prod_split (f g : List String → String → List String) :
    ∀ (tail : List String) (a b : List String),
    tail.foldl (fun st name => (f st.1 name, g st.2 name)) (a, b) =
      (tail.foldl f a, tail.foldl g b) := by
  intro tail
  induction tail with
  | nil => intro a b; rfl
  | cons t ts ih =>
    intro a b
    rw [List.foldl_cons, List.foldl_cons, List.foldl_cons]
    exact ih _ _

lemma foldl_erase_filter : ∀ (tail s : List String), s.Nodup →
    tail.foldl (fun names name => if name ∈ names then names.erase name else names) s =
      s.filter (fun x => decide (x ∉ tail)) := by
  intro tail
  induction tail with
  | nil =>
    intro s hs
    simp
  | cons t ts ih =>
    intro s hs
    rw [List.foldl_cons]
    by_cases ht : t ∈ s
    · rw [if_pos ht, ih _ (hs.erase t), hs.erase_eq_filter t, List.filter_filter]
      apply List.filter_congr
      intro x hx
      by_cases hxt : x = t
      · simp [hxt]
      · simp [hxt]
    · rw [if_neg ht, ih _ hs]
      apply List.filter_congr
      intro x hx
      have hxt : x ≠ t := fun he => ht (he ▸ hx)
      simp [hxt]

lemma dedupKeepFirst_cons (own : String) (tail : List String) :
    dedupKeepFirst (own :: tail) =
      tail.foldl (fun acc a => if a ∈ acc then acc else acc ++ [a]) [own] := by
  rw [dedupKeepFirst, List.foldl_cons]
  simp

/-- Claim C8: for every non-empty preference row (own name first) and
every duplicate-free eligible-name list, `fill_list` returns exactly the
row deduplicated keeping first occurrences (the own name staying in
front), followed by the eligible names not stated in the tail, sorted in
ascending lexicographic order; a row with no stated preferences is
handled without error and receives the whole eligible set in sorted
order. -/
theorem claim_C8_completion (own : String) (tail s : List String) (hs : s.Nodup) :
    fill_list (own :: tail) s =
      some (dedupKeepFirst (own :: tail) ++
        sortStr (s.filter (fun x => decide (x ∉ tail)))) ∧
    (sortStr (s.filter (fun x => decide (x ∉ tail)))).Sorted strRel ∧
    (sortStr (s.filter (fun x => decide (x ∉ tail)))).Perm
      (s.filter (fun x => decide (x ∉ tail))) := by
  refine ⟨?_, List.sorted_insertionSort strRel _, List.perm_insertionSort strRel _⟩
  rw [fill_list]
  dsimp only
  rw [foldl_prod_split (fun l name => if name ∈ l then l else l ++ [name])
    (fun names name => if name ∈ names then names.erase name else names) tail [own] s]
  rw [foldl_erase_filter tail s hs, dedupKeepFirst_cons]

/-! Membership in the mutual top-choice output. -/

lemma mtc_mem {candidates : List (String × List String)} :
    ∀ (mentors : List (String × List String)) (acc out : List (String × String)),
    match_top_choices mentors candidates acc = some out →
    ∀ p ∈ out, p ∈ acc ∨ ∃ prefs cprefs,
      (p.1, prefs) ∈ mentors ∧ prefs.head? = some p.2 ∧
      alookup candidates p.2 = some cprefs ∧ cprefs.head? = some p.1 := by
  intro mentors
  induction mentors with
  | nil =>
    intro acc out h p hp
    simp only [match_top_choices, Option.some.injEq] at h
    subst h
    exact Or.inl hp
  | cons q rest ih =>
    intro acc out h p hp
    obtain ⟨mentor, preference_list⟩ := q
    rw [match_top_choices.eq_def] at h
    dsimp only at h
    cases preference_list with
    | nil =>
      rcases ih acc out h p hp with h' | ⟨prefs, cprefs, hmem, h2, h3, h4⟩
      · exact Or.inl h'
      · exact Or.inr ⟨prefs, cprefs, List.mem_cons_of_mem _ hmem, h2, h3, h4⟩
    | cons top tl =>
      dsimp only at h
      cases halk : alookup candidates top with
      | none =>
        rw [halk] at h
        cases h
      | some cPrefs =>
        rw [halk] at h
        dsimp only at h
        cases cPrefs with
        | nil => cases h
        | cons cTop ctl =>
          dsimp only at h
          rcases ih _ out h p hp with hacc | ⟨prefs, cprefs, hmem, h2, h3, h4⟩
          · by_cases hct : cTop = mentor
            · rw [if_pos hct] at hacc
              rcases List.mem_append.mp hacc with h' | h'
              · exact Or.inl h'
              · simp at h'
                refine Or.inr ⟨top :: tl, cTop :: ctl, ?_, ?_, ?_, ?_⟩
                · rw [h']
                  exact List.mem_cons_self _ _
                · rw [h']
                  rfl
                · rw [h']
                  exact halk
                · rw [h', hct]
                  rfl
            · rw [if_neg hct] at hacc
              exact Or.inl hacc
          · exact Or.inr ⟨prefs, cprefs, List.mem_cons_of_mem _ hmem, h2, h3, h4⟩

/-- Claim C9 (counterexample): on a 3-proposer, 2-responder instance with
already-total validated lists, `match_top_choices` confirms the mutual
top pair `(m1, c1)`, yet `stable_marriage` on the same (completed,
unreduced) instance returns the empty infeasibility result, so the
confirmed pair does not appear in the engine's output. -/
theorem claim_C9_counterexample :
    match_top_choices
      [("m1", ["c1", "c2"]), ("m2", ["c1", "c2"]), ("m3", ["c1", "c2"])]
      [("c1", ["m1", "m2", "m3"]), ("c2", ["m1", "m2", "m3"])] [] =
      some [("m1", "c1")] ∧
    stable_marriage
      [("m1", ["c1", "c2"]), ("m2", ["c1", "c2"]), ("m3", ["c1", "c2"])]
      [("c1", ["m1", "m2", "m3"]), ("c2", ["m1", "m2", "m3"])] 30 = some [] := by
  refine ⟨by decide, by decide⟩

/-- Claim C9 (amended): on a valid instance, every pair confirmed by
`match_top_choices` (a proposer and responder who are each other's top
choice) belongs to every stable matching of the instance, and it also
appears in the result of `stable_marriage` whenever that result is
non-empty (with more proposers than responders the engine returns the
empty infeasibility signal instead, and no pair appears). -/
theorem claim_C9_amended (male female : List (String × List String))
    (out : List (String × String)) (m c : String) (hv : Valid male female)
    (hmt : match_top_choices male female [] = some out) (hmem : (m, c) ∈ out) :
    (∀ mu, ListStable male female mu → matchOfM mu m = some c) ∧
    (∀ fuel res, stable_marriage male female fuel = some res → res ≠ [] →
      resMatchOfM res m = some c) := by
  rcases mtc_mem male [] out hmt (m, c) hmem with h | ⟨prefs, cprefs, hmm, hhead, halkc, hchead⟩
  · simp at h
  have hm : m ∈ male.map Prod.fst := List.mem_map.mpr ⟨(m, prefs), hmm, rfl⟩
  have hprefs : prefsIn male m = prefs := by
    simp [prefsIn, alookup_of_mem_nodup hv.1 hmm]
  have hcprefs : prefsIn female c = cprefs := by
    simp [prefsIn, halkc]
  have hcW : c ∈ female.map Prod.fst := alookup_mem_keys halkc
  have hrowm := valid_mrow hv hm
  have hroww := valid_wrow hv hcW
  have hcmem : c ∈ prefsIn male m := hrowm.2.2 c hcW
  have hmmem : m ∈ prefsIn female c := hroww.2.2 m hm
  have hrankc : rankIn (prefsIn male m) (some c) = 0 := by
    apply rankIn_get? hrowm.1
    rw [hprefs, List.get?_zero, hhead]
  have hrankm : rankIn (prefsIn female c) (some m) = 0 := by
    apply rankIn_get? hroww.1
    rw [hcprefs, List.get?_zero, hchead]
  constructor
  · intro mu hmu
    obtain ⟨wmu, hmOfM, hpair⟩ := matchOfM_exists (hmu.2.2.2.1 m hm)
    rw [hmOfM]
    by_contra hne
    have hne' : wmu ≠ c := fun he => hne (he ▸ rfl)
    have hwmuW : wmu ∈ female.map Prod.fst := (hmu.2.2.1 _ hpair).2
    have hwmumem : wmu ∈ prefsIn male m := hrowm.2.2 wmu hwmuW
    have hpos : 0 < rankIn (prefsIn male m) (some wmu) := by
      rcases Nat.eq_zero_or_pos (rankIn (prefsIn male m) (some wmu)) with h0 | h0
      · exact absurd (eq_of_rankIn_eq hwmumem hcmem (h0.trans hrankc.symm)) hne'
      · exact h0
    have hblock := hmu.2.2.2.2 m hm c hcW
    rw [hmOfM, hrankc] at hblock
    have hnb := hblock hpos
    rw [hrankm] at hnb
    cases hmow : matchOfW mu c with
    | none =>
      rw [hmow] at hnb
      have h1 : rankIn (prefsIn female c) (some m) < (prefsIn female c).length :=
        rankIn_lt_length_of_mem hmmem
      have h2 : rankIn (prefsIn female c) none = (prefsIn female c).length := rfl
      rw [h2] at hnb
      rw [hrankm] at h1
      exact hnb h1
    | some m4 =>
      rw [hmow] at hnb
      have hm4mem : (m4, c) ∈ mu := matchOfW_mem hmow
      have hm4keys : m4 ∈ male.map Prod.fst := (hmu.2.2.1 _ hm4mem).1
      have hm4c : m4 ∈ prefsIn female c := hroww.2.2 m4 hm4keys
      have hm4ne : m4 ≠ m := by
        intro he
        subst he
        have : matchOfM mu m4 = some c := matchOfM_of_mem hmu.1 hm4mem
        rw [hmOfM] at this
        cases this
        exact hne' rfl
      have : 0 < rankIn (prefsIn female c) (some m4) := by
        rcases Nat.eq_zero_or_pos (rankIn (prefsIn female c) (some m4)) with h0 | h0
        · exact absurd (eq_of_rankIn_eq hm4c hmmem (h0.trans hrankm.symm)) hm4ne
        · exact h0
      exact hnb this
  · intro fuel res hrun hne
    obtain ⟨sF, dF, hres, hInv⟩ := run_success hv hrun hne
    subst hres
    obtain ⟨w0, hsw0⟩ := final_matched hInv m hm
    have hw0W : w0 ∈ female.map Prod.fst := (hInv.srange w0 m hsw0).2
    obtain ⟨wm, hwm⟩ := resMatchOfM_exists sF hw0W hsw0
    obtain ⟨hswm, hwmW⟩ := resMatchOfM_sound sF hwm
    rw [hwm]
    by_contra hne2
    have hne2' : wm ≠ c := fun he => hne2 (he ▸ rfl)
    have hwmmem : wm ∈ prefsIn male m := hrowm.2.2 wm hwmW
    have hpos : 0 < rankIn (prefsIn male m) (some wm) := by
      rcases Nat.eq_zero_or_pos (rankIn (prefsIn male m) (some wm)) with h0 | h0
      · exact absurd (eq_of_rankIn_eq hwmmem hcmem (h0.trans hrankc.symm)) hne2'
      · exact h0
    obtain ⟨m', hswc, hlt'⟩ := final_stable hv hInv m hm c hcW wm hswm
      (by rw [hrankc]; exact hpos)
    rw [hrankm] at hlt'
    omega

/-- Claim C10: `match_top_choices` is not total — on a validated-shape
input where a mentor's top choice exists but has an empty preference
list the lookup `candidates[preference_list[0]][0]` fails (the
`IndexError` is modelled by `none`) — and it is exception-free whenever
every candidate occurring as some mentor's first choice has a non-empty
preference list. -/
theorem claim_C10_totality :
    (match_top_choices [("m", ["c"])] [("c", [])] [] = none) ∧
    (∀ mentors candidates acc,
      (∀ p ∈ mentors, ∀ top, p.2.head? = some top →
        ∃ l, alookup candidates top = some l ∧ l ≠ []) →
      (match_top_choices mentors candidates acc).isSome) := by
  refine ⟨by decide, ?_⟩
  intro mentors
  induction mentors with
  | nil =>
    intro candidates acc h
    simp [match_top_choices]
  | cons q rest ih =>
    intro candidates acc h
    obtain ⟨mentor, prefs⟩ := q
    cases prefs with
    | nil =>
      simp only [match_top_choices]
      exact ih candidates acc (fun p hp top ht => h p (List.mem_cons_of_mem _ hp) top ht)
    | cons top tl =>
      simp only [match_top_choices]
      rcases h (mentor, top :: tl) (List.mem_cons_self _ _) top rfl with ⟨l, hl, hlne⟩
      rw [hl]
      cases l with
      | nil => exact absurd rfl hlne
      | cons cTop ctl =>
        dsimp only
        exact ih candidates _ (fun p hp t ht => h p (List.mem_cons_of_mem _ hp) t ht)

/-! Witnesses: each applies the corresponding theorem at a concrete
instance, discharging its hypotheses there. -/

/-- Witness for claim C1 at a one-proposer, one-responder instance. -/
theorem claim_C1_stability_witness :
    (Valid [("a", ["x"])] [("x", ["a"])] ∧
      stable_marriage [("a", ["x"])] [("x", ["a"])] 10 = some [(some "a", "x")] ∧
      ([(some "a", "x")] : List (Option String × String)) ≠ []) ∧
    (∀ m ∈ [("a", ["x"])].map Prod.fst, ∀ w ∈ [("x", ["a"])].map Prod.fst,
      rankIn (prefsIn [("a", ["x"])] m) (some w) <
        rankIn (prefsIn [("a", ["x"])] m) (resMatchOfM [(some "a", "x")] m) →
      ¬ rankIn (prefsIn [("x", ["a"])] w) (some m) <
        rankIn (prefsIn [("x", ["a"])] w) (resMatchOfW [(some "a", "x")] w)) :=
  ⟨⟨by decide, by decide, by decide⟩,
    claim_C1_stability [("a", ["x"])] [("x", ["a"])] 10 [(some "a", "x")]
      (by decide) (by decide) (by decide)⟩

/-- Witness for claim C3 at a one-proposer, one-responder instance with
the only stable matching of that instance. -/
theorem claim_C3_optimality_witness :
    (Valid [("a", ["x"])] [("x", ["a"])] ∧
      stable_marriage [("a", ["x"])] [("x", ["a"])] 10 = some [(some "a", "x")] ∧
      ([(some "a", "x")] : List (Option String × String)) ≠ [] ∧
      ListStable [("a", ["x"])] [("x", ["a"])] [("a", "x")]) ∧
    (∀ m ∈ [("a", ["x"])].map Prod.fst,
      rankIn (prefsIn [("a", ["x"])] m) (resMatchOfM [(some "a", "x")] m) ≤
        rankIn (prefsIn [("a", ["x"])] m) (matchOfM [("a", "x")] m)) :=
  ⟨⟨by decide, by decide, by decide, by decide⟩,
    claim_C3_optimality [("a", ["x"])] [("x", ["a"])] 10 [(some "a", "x")] [("a", "x")]
      (by decide) (by decide) (by decide) (by decide)⟩

/-- Witness for the general coverage part of the amended claim C2. -/
theorem claim_C2_amended_witness :
    (Valid [("a", ["x"])] [("x", ["a"])] ∧
      stable_marriage [("a", ["x"])] [("x", ["a"])] 10 = some [(some "a", "x")] ∧
      ([(some "a", "x")] : List (Option String × String)) ≠ []) ∧
    ([(some "a", "x")].map Prod.snd = [("x", ["a"])].map Prod.fst ∧
      (∀ m ∈ [("a", ["x"])].map Prod.fst,
        [(some "a", "x")].countP (fun p => decide (p.1 = some m)) = 1) ∧
      (∀ w ∈ [("x", ["a"])].map Prod.fst,
        [(some "a", "x")].countP (fun p => decide (p.2 = w)) = 1)) :=
  ⟨⟨by decide, by decide, by decide⟩,
    claim_C2_amended.2 [("a", ["x"])] [("x", ["a"])] 10 [(some "a", "x")]
      (by decide) (by decide) (by decide)⟩

/-- Witness for the amended claim C7: with depth 1 nothing is matched,
and the pairing emitted at depth 2 indeed names a rank-1 slot. -/
theorem claim_C7_amended_witness :
    (match_no_preference [["a"]] [["G", "a"]] 1 = []) ∧
    (("a", "G") ∈ match_no_preference [["a"]] [["G", "a"]] 2) ∧
    (∃ i, 1 ≤ i ∧ i < 2 ∧ ∃ row ∈ [["G", "a"]], i < row.length ∧
      row.headD "" = ("a", "G").2 ∧ row.getD i "" = ("a", "G").1) :=
  ⟨claim_C7_amended.1 [["a"]] [["G", "a"]], by decide,
    claim_C7_amended.2 [["a"]] [["G", "a"]] 2 ("a", "G") (by decide)⟩

/-- Witness for claim C8 on a row with a duplicated stated preference. -/
theorem claim_C8_completion_witness :
    (["c1", "c2"] : List String).Nodup ∧
    (fill_list ["m", "c2", "c2"] ["c1", "c2"] =
      some (dedupKeepFirst ["m", "c2", "c2"] ++
        sortStr (["c1", "c2"].filter (fun x => decide (x ∉ ["c2", "c2"])))) ∧
    (sortStr (["c1", "c2"].filter (fun x => decide (x ∉ ["c2", "c2"])))).Sorted strRel ∧
    (sortStr (["c1", "c2"].filter (fun x => decide (x ∉ ["c2", "c2"])))).Perm
      (["c1", "c2"].filter (fun x => decide (x ∉ ["c2", "c2"])))) :=
  ⟨by decide, claim_C8_completion "m" ["c2", "c2"] ["c1", "c2"] (by decide)⟩

/-- Witness for the amended claim C9 at a one-pair instance: the
confirmed mutual top pair is in the unique stable matching and in the
engine result. -/
theorem claim_C9_amended_witness :
    (Valid [("a", ["x"])] [("x", ["a"])] ∧
      match_top_choices [("a", ["x"])] [("x", ["a"])] [] = some [("a", "x")] ∧
      (("a", "x") ∈ [("a", "x")]) ∧
      ListStable [("a", ["x"])] [("x", ["a"])] [("a", "x")] ∧
      stable_marriage [("a", ["x"])] [("x", ["a"])] 10 = some [(some "a", "x")]) ∧
    matchOfM [("a", "x")] "a" = some "x" ∧
    resMatchOfM [(some "a", "x")] "a" = some "x" :=
  ⟨⟨by decide, by decide, by decide, by decide, by decide⟩,
    (claim_C9_amended [("a", ["x"])] [("x", ["a"])] [("a", "x")] "a" "x"
      (by decide) (by decide) (by decide)).1 [("a", "x")] (by decide),
    (claim_C9_amended [("a", ["x"])] [("x", ["a"])] [("a", "x")] "a" "x"
      (by decide) (by decide) (by decide)).2 10 [(some "a", "x")]
      (by decide) (by decide)⟩

/-- Witness for the exception-freedom part of claim C10. -/
theorem claim_C10_totality_witness :
    (∀ p ∈ [("m2", ["c2"])], ∀ top, (Prod.snd p).head? = some top →
      ∃ l, alookup [("c2", ["m2"])] top = some l ∧ l ≠ []) ∧
    (match_top_choices [("m2", ["c2"])] [("c2", ["m2"])] []).isSome = true :=
  ⟨by
    intro p hp top ht
    simp only [List.mem_singleton] at hp
    subst hp
    simp only [List.head?] at ht
    cases ht
    exact ⟨["m2"], by decide, by decide⟩,
  claim_C10_totality.2 [("m2", ["c2"])] [("c2", ["m2"])] [] (by
    intro p hp top ht
    simp only [List.mem_singleton] at hp
    subst hp
    simp only [List.head?] at ht
    cases ht
    exact ⟨["m2"], by decide, by decide⟩)⟩

end StableMarriage
